import Mathlib

/-!
Verification of the additive homomorphic encryption core of the
blockchain-based triple-entry accounting system (TEAIS).

The JavaScript source is shallowly embedded: big-integer arithmetic is
modelled with `Nat` (all values handled by the code are non-negative),
JS `number` arithmetic on currency amounts is modelled with exact
rationals, random draws are passed as explicit parameters or tapes, and
thrown exceptions are modelled with `Option` or `Except`.
-/

set_option maxRecDepth 40000
set_option maxHeartbeats 1000000

namespace Teais

/-- Modular exponentiation by repeated squaring, with explicit fuel so the
definition is structural.  Mirrors the big-integer `modPow`. -/
def powModAux : ℕ → ℕ → ℕ → ℕ → ℕ
  | 0, _, _, m => 1 % m
  | fuel + 1, b, e, m =>
    if e = 0 then 1 % m
    else
      let h := powModAux fuel b (e / 2) m
      if e % 2 = 0 then h * h % m else h * h % m * b % m

/-- Wrapper `powMod b e m = b ^ e % m`, computable in logarithmic time. -/
def powMod (b e m : ℕ) : ℕ := powModAux e b e m

/-- Extended Euclid with fuel: `egcd fuel a b = (x, y, g)` with
`x * a + y * b = g = gcd a b` once the fuel covers `b`. -/
def egcd : ℕ → ℕ → ℕ → ℤ × ℤ × ℕ
  | 0, a, _ => (1, 0, a)
  | fuel + 1, a, b =>
    if b = 0 then (1, 0, a)
    else
      let r := egcd fuel b (a % b)
      (r.2.1, r.1 - (a / b : ℕ) * r.2.1, r.2.2)

/-- Modular inverse, mirroring the big-integer `modInv` which throws when no
inverse exists (modelled as `none`). -/
def modInv (a n : ℕ) : Option ℕ :=
  let r := egcd n a n
  if r.2.2 = 1 then some ((r.1 % (n : ℤ)).toNat) else none

/-- Paillier public key `{ n, g }`. -/
structure PublicKey where
  n : ℕ
  g : ℕ
deriving DecidableEq

/-- Paillier private key `{ n, lambda, mu }`. -/
structure PrivateKey where
  n : ℕ
  lambda : ℕ
  mu : ℕ
deriving DecidableEq

/-- A `{ publicKey, privateKey }` pair as produced by `generateCompanyKeypair`. -/
structure Keypair where
  publicKey : PublicKey
  privateKey : PrivateKey
deriving DecidableEq

/-- Function `L(x) = (x - 1) / n` (exact integer division in the source). -/
def L (x n : ℕ) : ℕ := (x - 1) / n

/-- Core of `CompanyPaillierKeyGenerator.generateCompanyKeypair`, as a function
of the prime pair it reads from `companyPrimePairs`: `n = p*q`, `g = n+1`,
`lambda = (p-1)*(q-1)/gcd(p-1,q-1)`, `mu = L(g^lambda mod n²)⁻¹ mod n`.
`none` models the exception the big-integer `modInv` throws when no inverse
exists. -/
def keypairFromPrimes (p q : ℕ) : Option Keypair :=
  let n := p * q
  let g := n + 1
  let lambda := (p - 1) * (q - 1) / Nat.gcd (p - 1) (q - 1)
  match modInv (L (powMod g lambda (n ^ 2)) n) n with
  | none => none
  | some mu => some ⟨⟨n, g⟩, ⟨n, lambda, mu⟩⟩

/-- The hard-coded prime pairs of `CompanyPaillierKeyGenerator`. -/
def companyPrimePairs : List (ℕ × ℕ) :=
  [(1009, 1013), (1019, 1021), (1031, 1033), (1039, 1049),
   (1051, 1061), (1063, 1069), (1087, 1091), (1093, 1097)]

/-- Embedding of `generateCompanyKeypair(companyIndex)`: throws when the index exceeds the
available prime pairs, otherwise builds the keypair from the stored pair. -/
def generateCompanyKeypair (companyIndex : ℕ) : Except String Keypair :=
  if companyIndex ≥ companyPrimePairs.length then
    .error "Company index exceeds available prime pairs"
  else
    match companyPrimePairs[companyIndex]? with
    | none => .error "Company index exceeds available prime pairs"
    | some pq =>
      match keypairFromPrimes pq.1 pq.2 with
      | none => .error "No modular inverse exists"
      | some kp => .ok kp

/-- Encryption `c = g^m * r^n mod n²`. -/
def paillierEncrypt (plaintext : ℕ) (publicKey : PublicKey) (r : ℕ) : ℕ :=
  let n2 := publicKey.n ^ 2
  powMod publicKey.g plaintext n2 * powMod r publicKey.n n2 % n2

/-- Decryption `m = L(c^lambda mod n²) * mu mod n`. -/
def paillierDecrypt (ciphertext : ℕ) (privateKey : PrivateKey) : ℕ :=
  let n2 := privateKey.n ^ 2
  L (powMod ciphertext privateKey.lambda n2) privateKey.n * privateKey.mu % privateKey.n

/-- Homomorphic addition `add(c1, c2) = c1 * c2 mod n²`
(`PaillierEncryption.add`). -/
def add (publicKey : PublicKey) (c1 c2 : ℕ) : ℕ := c1 * c2 % publicKey.n ^ 2

/-- The loop exits (on some iteration a draw is coprime with `n`). -/
def loopExits (n : ℕ) (tape : ℕ → ℕ) : Prop := ∃ i, Nat.gcd (tape i) n = 1

/-- The loop is still running after consuming `k` draws: none of the first `k`
draws was coprime with `n`. -/
def loopStillRunning (n : ℕ) (tape : ℕ → ℕ) (k : ℕ) : Bool :=
  decide (∀ i < k, Nat.gcd (tape i) n ≠ 1)

/-- The value the loop returns when it exits: the first coprime draw. -/
def sampledR (n : ℕ) (tape : ℕ → ℕ) (h : loopExits n tape) : ℕ :=
  tape (Nat.find h)

/-- A company as stored in `DualEncryptionProcessor.companyLookup`. -/
structure Company where
  id : String
  name : String
  paillierPublicKey : PublicKey
  paillierPrivateKey : PrivateKey
deriving DecidableEq

/-- The `companyLookup` map, which registers every company under both its id
and its name (later insertions overwrite earlier ones). -/
def companyLookup (cs : List Company) (key : String) : Option Company :=
  cs.reverse.find? (fun c => c.id == key || c.name == key)

/-- A transaction record; `heSender`/`heRecipient` are the
`HE_pk_sender(amount)` / `HE_pk_recipient(amount)` ciphertext columns and
`num` is the `#` column. -/
structure Transaction where
  num : ℕ
  seller : String
  buyer : String
  amount : ℚ
  sender_id : Option String
  recipient_id : Option String
  heSender : ℕ
  heRecipient : ℕ
deriving DecidableEq

/-- JavaScript `Math.round` on an exact rational: round half away from
zero is `⌊x + 1/2⌋` for the non-negative amounts the system handles. -/
def jsRound (x : ℚ) : ℤ := ⌊x + 1 / 2⌋

/-- Result object of `dualEncryptAmount` (timestamp omitted). -/
structure DualEncryptionResult where
  originalAmount : ℚ
  amountInCents : ℤ
  senderId : String
  recipientId : String
  senderEncrypted : ℕ
  recipientEncrypted : ℕ
  senderPaillierN : ℕ
  recipientPaillierN : ℕ
deriving DecidableEq

/-- Embedding of `DualEncryptionProcessor.dualEncryptAmount`: looks up both parties,
converts the amount to cents with `Math.round(amount * 100)`, and encrypts
the cents under both public keys (`rs`, `rr` are the two random draws). -/
def dualEncryptAmount (cs : List Company) (amount : ℚ)
    (senderId recipientId : String) (rs rr : ℕ) :
    Except String DualEncryptionResult :=
  match companyLookup cs senderId, companyLookup cs recipientId with
  | some sender, some recipient =>
    let amountInCents : ℤ := jsRound (amount * 100)
    .ok { originalAmount := amount
          amountInCents := amountInCents
          senderId := senderId
          recipientId := recipientId
          senderEncrypted := paillierEncrypt amountInCents.toNat sender.paillierPublicKey rs
          recipientEncrypted := paillierEncrypt amountInCents.toNat recipient.paillierPublicKey rr
          senderPaillierN := sender.paillierPublicKey.n
          recipientPaillierN := recipient.paillierPublicKey.n }
  | _, _ => .error "Invalid company IDs"

/-- An element of the list `processDualEncryption` returns: the (possibly
updated) transaction object plus the fields the processor may attach. -/
structure EnhancedTransaction where
  base : Transaction
  dualEncMeta : Option DualEncryptionResult
  dualEncryptedFlag : Option Bool
  encryptionErrorMsg : Option String
deriving DecidableEq

/-- Body of the `map` inside `processDualEncryption` for one transaction:
return it unchanged when an id is missing (JS-falsy: absent or empty),
otherwise dual-encrypt, catching any error into
`{ dual_encrypted: false, encryption_error }`. -/
def processOne (cs : List Company) (rp : ℕ × ℕ) (t : Transaction) :
    EnhancedTransaction :=
  match t.sender_id, t.recipient_id with
  | some sid, some rid =>
    if sid = "" ∨ rid = "" then ⟨t, none, none, none⟩
    else
      match dualEncryptAmount cs t.amount sid rid rp.1 rp.2 with
      | .ok d =>
        ⟨{ t with heSender := d.senderEncrypted, heRecipient := d.recipientEncrypted },
         some d, some true, none⟩
      | .error e => ⟨t, none, some false, some e⟩
  | _, _ => ⟨t, none, none, none⟩

/-- Embedding of `DualEncryptionProcessor.processDualEncryption`, mapped over the list with
the index-dependent pair of random draws `rtape i`. -/
def processDualEncryption (cs : List Company) (rtape : ℕ → ℕ × ℕ) :
    ℕ → List Transaction → List EnhancedTransaction
  | _, [] => []
  | i, t :: ts => processOne cs (rtape i) t :: processDualEncryption cs rtape (i + 1) ts

/-- Result object of `verifyDualEncryption`. -/
structure VerificationResult where
  role : String
  canDecrypt : Bool
  verified : Bool
  decryptedAmount : Option ℚ
  decryptedCents : Option ℕ
  message : String
deriving DecidableEq

/-- Embedding of `DualEncryptionProcessor.verifyDualEncryption`: decrypts the
claimant side of the dual ciphertext with the private key of the claimant and compares
the decrypted dollars against the stored amount within `0.01`. -/
def verifyDualEncryption (cs : List Company) (t : Transaction)
    (companyId : String) : Except String VerificationResult :=
  match companyLookup cs companyId with
  | none => .error "Invalid company ID"
  | some company =>
    if t.sender_id == some companyId then
      let decryptedCents := paillierDecrypt t.heSender company.paillierPrivateKey
      let decryptedAmount : ℚ := (decryptedCents : ℚ) / 100
      let amountMatches : Bool := decide (|decryptedAmount - t.amount| < 1 / 100)
      .ok { role := "sender", canDecrypt := true, verified := amountMatches
            decryptedAmount := some decryptedAmount
            decryptedCents := some decryptedCents
            message := if amountMatches then "Amount verification successful"
                       else "Amount mismatch detected" }
    else if t.recipient_id == some companyId then
      let decryptedCents := paillierDecrypt t.heRecipient company.paillierPrivateKey
      let decryptedAmount : ℚ := (decryptedCents : ℚ) / 100
      let amountMatches : Bool := decide (|decryptedAmount - t.amount| < 1 / 100)
      .ok { role := "recipient", canDecrypt := true, verified := amountMatches
            decryptedAmount := some decryptedAmount
            decryptedCents := some decryptedCents
            message := if amountMatches then "Amount verification successful"
                       else "Amount mismatch detected" }
    else
      .ok { role := "third_party", canDecrypt := false, verified := false
            decryptedAmount := none, decryptedCents := none
            message := "Company is not involved in this transaction" }

/-- Embedding of `calculatePaillierSum`: reduce over the ciphertexts starting from 0,
passing the first value through and then multiplying mod n². -/
def calculatePaillierSum (encryptedValues : List ℕ) (publicKey : PublicKey) : ℕ :=
  if encryptedValues = [] then 0
  else encryptedValues.foldl
    (fun sum value => if sum = 0 then value else sum * value % publicKey.n ^ 2) 0

/-- Result of `calculateCompanyHomomorphicSum`; `homomorphicSum = none`
models the `null` returned for a party with no matching transactions. -/
structure HomomorphicSumResult where
  transactionCount : ℕ
  homomorphicSum : Option ℕ
  actualSum : ℚ
deriving DecidableEq

/-- The filter step of `calculateCompanyHomomorphicSum`: the company
transactions in the given direction. -/
def relevantTransactions (transactions : List Transaction)
    (companyId direction : String) : List Transaction :=
  if direction == "sent"
  then transactions.filter (fun tx => tx.sender_id == some companyId)
  else transactions.filter (fun tx => tx.recipient_id == some companyId)

/-- Embedding of `DualEncryptionProcessor.calculateCompanyHomomorphicSum`: filters the
transactions of the company in the given direction, folds the homomorphic
product of their ciphertexts, and sums their plaintext decimal amounts. -/
def calculateCompanyHomomorphicSum (cs : List Company)
    (transactions : List Transaction) (companyId direction : String) :
    Except String HomomorphicSumResult :=
  match companyLookup cs companyId with
  | none => .error "Invalid company ID"
  | some company =>
    let relevant := relevantTransactions transactions companyId direction
    if relevant.length = 0 then
      .ok { transactionCount := 0, homomorphicSum := none, actualSum := 0 }
    else
      let encryptedAmounts := relevant.map
        (fun tx => if direction == "sent" then tx.heSender else tx.heRecipient)
      .ok { transactionCount := relevant.length
            homomorphicSum := some (calculatePaillierSum encryptedAmounts company.paillierPublicKey)
            actualSum := (relevant.map (·.amount)).sum }

/-- Per-company result of `generateCompanyFinancialStatement`. -/
structure CompanyStatement where
  companyId : String
  sentCount : ℕ
  receivedCount : ℕ
  actualSent : ℚ
  actualReceived : ℚ
  homomorphicSent : Option ℕ
  homomorphicReceived : Option ℕ
  verified : Bool
deriving DecidableEq

/-- Embedding of `YearEndVerificationSystem.generateCompanyFinancialStatement`: the
declared totals are the computed `actualSum`s, and the verification flags
compare each declared total with itself within `0.01`. -/
def generateCompanyFinancialStatement (cs : List Company) (company : Company)
    (transactions : List Transaction) : Except String CompanyStatement := do
  let sentSum ← calculateCompanyHomomorphicSum cs transactions company.id "sent"
  let receivedSum ← calculateCompanyHomomorphicSum cs transactions company.id "received"
  let sentVerified : Bool := decide (|sentSum.actualSum - sentSum.actualSum| < 1 / 100)
  let receivedVerified : Bool := decide (|receivedSum.actualSum - receivedSum.actualSum| < 1 / 100)
  pure { companyId := company.id
         sentCount := sentSum.transactionCount
         receivedCount := receivedSum.transactionCount
         actualSent := sentSum.actualSum
         actualReceived := receivedSum.actualSum
         homomorphicSent := sentSum.homomorphicSum
         homomorphicReceived := receivedSum.homomorphicSum
         verified := sentVerified && receivedVerified }

/-- The duplicate scan of `verifyNetworkIntegrity`: walk the transactions,
recording each `#` in a seen-set and pushing those already seen. -/
def duplicateScan (seen : List ℕ) : List Transaction → List ℕ
  | [] => []
  | t :: ts =>
    if t.num ∈ seen then t.num :: duplicateScan seen ts
    else duplicateScan (t.num :: seen) ts

/-- Result object of `verifyNetworkIntegrity`. -/
structure NetworkIntegrityResult where
  totalSent : ℚ
  totalReceived : ℚ
  networkBalance : ℚ
  networkBalanced : Bool
  transactionConsistency : Bool
  duplicateTransactions : List ℕ
deriving DecidableEq

/-- Embedding of `YearEndVerificationSystem.verifyNetworkIntegrity`: totals the declared
sent and received sums of the per-company results, flags the network as
balanced when `|received - sent| < 0.01`, and lists duplicate `#`s. -/
def verifyNetworkIntegrity (transactions : List Transaction)
    (companyResults : List CompanyStatement) : NetworkIntegrityResult :=
  let totalSent := (companyResults.map (·.actualSent)).sum
  let totalReceived := (companyResults.map (·.actualReceived)).sum
  let networkBalance := totalReceived - totalSent
  let duplicateTransactions := duplicateScan [] transactions
  { totalSent := totalSent
    totalReceived := totalReceived
    networkBalance := networkBalance
    networkBalanced := decide (|networkBalance| < 1 / 100)
    transactionConsistency := decide (duplicateTransactions.length = 0)
    duplicateTransactions := duplicateTransactions }

/-- Predicate: `c` is congruent (mod `n²`) to a Paillier encryption of `m` for the
standard generator `g = n + 1`. -/
def EncOf (n m c : ℕ) : Prop :=
  ∃ ρ, Nat.Coprime ρ n ∧ c ≡ (n + 1) ^ m * ρ ^ n [MOD n ^ 2]

/-- A tape every draw of which shares the factor 1009 with the default
modulus: the retry loop never sees a coprime draw on it. -/
def constBadTape : ℕ → ℕ := fun _ => 1009

/-- A tape whose first draw 2 is already coprime with the default modulus. -/
def constGoodTape : ℕ → ℕ := fun _ => 2

def companyTC : Company :=
  { id := "TC001", name := "TechCorp Solutions"
    paillierPublicKey := ⟨1022117, 1022118⟩
    paillierPrivateKey := ⟨1022117, 255024, 749013⟩ }

def companyGM : Company :=
  { id := "GM002", name := "Global Manufacturing Inc"
    paillierPublicKey := ⟨1040399, 1040400⟩
    paillierPrivateKey := ⟨1040399, 519180, 345439⟩ }

def companySC : Company :=
  { id := "SC003", name := "Supply Chain Logistics"
    paillierPublicKey := ⟨1065023, 1065024⟩
    paillierPrivateKey := ⟨1065023, 531480, 353631⟩ }

def fixtureCompanies : List Company := [companyTC, companyGM, companySC]

/-- The transaction of the C4/C3 counterexamples: $15,000.00 (1,500,000
cents, beyond the sender modulus 1,022,117) sent by TC001, whose
sender-side ciphertext is `paillierEncrypt 1500000 ⟨1022117, 1022118⟩ 2`. -/
def cxTransaction : Transaction :=
  { num := 1, seller := "TechCorp Solutions", buyer := "Global Manufacturing Inc"
    amount := 15000
    sender_id := some "TC001", recipient_id := some "GM002"
    heSender := 929827924085
    heRecipient := 929827924085 }

/-- The two transactions of the C3 witness: $15.00 and $25.00 sent by
TC001, with well-formed sender-side ciphertexts. -/
def w3t1 : Transaction :=
  ⟨1, "TechCorp Solutions", "Global Manufacturing Inc", 15, some "TC001",
    some "GM002", 440693833735, 1⟩

def w3t2 : Transaction :=
  ⟨2, "TechCorp Solutions", "Global Manufacturing Inc", 25, some "TC001",
    some "GM002", 780776347594, 1⟩

/-- The statement `generateCompanyFinancialStatement` produces for a company
with no transactions. -/
def emptyStatement (cid : String) : CompanyStatement :=
  { companyId := cid, sentCount := 0, receivedCount := 0
    actualSent := 0, actualReceived := 0
    homomorphicSent := none, homomorphicReceived := none
    verified := decide (|(0 : ℚ) - 0| < 1 / 100) && decide (|(0 : ℚ) - 0| < 1 / 100) }

/-- What `processDualEncryption` guarantees for one input transaction `t`
and its output element `e`: a transaction with a JS-falsy (absent or
empty) party id is returned unchanged; a failing encryption (unknown
company id) returns the transaction with `dual_encrypted := false` and the
error message; a successful encryption keeps every identifying field and
sets `dual_encrypted := true`. -/
def ProcessedSpec (cs : List Company) (t : Transaction) (e : EnhancedTransaction) : Prop :=
  ((t.sender_id = none ∨ t.recipient_id = none ∨ t.sender_id = some "" ∨
      t.recipient_id = some "") → e = ⟨t, none, none, none⟩) ∧
  (∀ sid rid, t.sender_id = some sid → t.recipient_id = some rid →
    sid ≠ "" → rid ≠ "" →
    ((companyLookup cs sid = none ∨ companyLookup cs rid = none) →
      e = ⟨t, none, some false, some "Invalid company IDs"⟩) ∧
    (∀ s r, companyLookup cs sid = some s → companyLookup cs rid = some r →
      e.dualEncryptedFlag = some true ∧ e.encryptionErrorMsg = none ∧
      e.base.num = t.num ∧ e.base.seller = t.seller ∧ e.base.buyer = t.buyer ∧
      e.base.amount = t.amount ∧ e.base.sender_id = t.sender_id ∧
      e.base.recipient_id = t.recipient_id))

/-- The three transactions of the C10 witness: one with a missing sender
id, one naming an unregistered sender, one well-formed. -/
def w10txs : List Transaction :=
  [⟨1, "A", "B", 10, none, some "GM002", 0, 0⟩,
   ⟨2, "A", "B", 10, some "ZZ999", some "GM002", 0, 0⟩,
   ⟨3, "TechCorp Solutions", "Global Manufacturing Inc", 15, some "TC001",
     some "GM002", 0, 0⟩]

/-! ## Theorems -/

theorem powModAux_eq (fuel b e m : ℕ) (he : e ≤ fuel) :
    powModAux fuel b e m = b ^ e % m := by
  induction fuel generalizing e with
  | zero =>
    interval_cases e
    rfl
  | succ fuel ih =>
    rw [powModAux]
    by_cases h0 : e = 0
    · simp [h0]
    · have hrec : e / 2 ≤ fuel := by omega
      rw [if_neg h0, ih _ hrec]
      by_cases hpar : e % 2 = 0
      · rw [if_pos hpar]
        conv_rhs => rw [show e = e / 2 + e / 2 by omega, pow_add, Nat.mul_mod]
      · rw [if_neg hpar]
        conv_rhs => rw [show e = e / 2 + e / 2 + 1 by omega]
        rw [pow_add, pow_add, pow_one, ← Nat.mul_mod, Nat.mod_mul_mod]

theorem powMod_eq (b e m : ℕ) : powMod b e m = b ^ e % m :=
  powModAux_eq e b e m le_rfl

theorem egcd_spec (fuel : ℕ) : ∀ a b : ℕ, b ≤ fuel →
    (egcd fuel a b).1 * a + (egcd fuel a b).2.1 * b = (egcd fuel a b).2.2 ∧
    (egcd fuel a b).2.2 = Nat.gcd a b := by
  induction fuel with
  | zero =>
    intro a b hb
    have hb0 : b = 0 := by omega
    subst hb0
    exact ⟨by show (1 : ℤ) * a + 0 * 0 = (a : ℤ); ring, by show a = Nat.gcd a 0; simp⟩
  | succ fuel ih =>
    intro a b hb
    rw [egcd]
    by_cases h0 : b = 0
    · subst h0
      exact ⟨by show (1 : ℤ) * a + 0 * 0 = (a : ℤ); ring, by show a = Nat.gcd a 0; simp⟩
    · rw [if_neg h0]
      have hlt : a % b ≤ fuel := by
        have := Nat.mod_lt a (show 0 < b by omega)
        omega
      obtain ⟨h1, h2⟩ := ih b (a % b) hlt
      have hdm := Nat.div_add_mod a b
      constructor
      · simp only
        rw [← h1]
        generalize a / b = d at hdm ⊢
        generalize a % b = r at hdm ⊢
        have hz : (b : ℤ) * d + (r : ℤ) = a := by exact_mod_cast hdm
        linear_combination (-(egcd fuel b r).2.1 : ℤ) * hz
      · simp only [h2]
        rw [Nat.gcd_comm b (a % b), ← Nat.gcd_rec b a, Nat.gcd_comm b a]

theorem modInv_isSome_iff (a n : ℕ) : (modInv a n).isSome ↔ Nat.gcd a n = 1 := by
  unfold modInv
  obtain ⟨_, h2⟩ := egcd_spec n a n le_rfl
  by_cases h : (egcd n a n).2.2 = 1 <;> simp [h, h2.symm, Option.isSome]

theorem modInv_mul (a n b : ℕ) (hn : 1 < n) (h : modInv a n = some b) :
    a * b % n = 1 := by
  unfold modInv at h
  obtain ⟨h1, h2⟩ := egcd_spec n a n le_rfl
  by_cases hg : (egcd n a n).2.2 = 1
  · rw [if_pos hg] at h
    have hnn : (0 : ℤ) ≤ (egcd n a n).1 % n :=
      Int.emod_nonneg _ (Int.natCast_ne_zero.mpr (by omega))
    have hb : (b : ℤ) = (egcd n a n).1 % n := by
      rw [← Option.some.inj h, Int.toNat_of_nonneg hnn]
    have hbez : (egcd n a n).1 * (a : ℤ) = 1 + (n : ℤ) * (-(egcd n a n).2.1) := by
      rw [hg] at h1
      push_cast at h1 ⊢
      linarith
    have key : ((egcd n a n).1 * (a : ℤ)) % n = 1 := by
      rw [hbez, Int.add_mul_emod_self_left]
      exact Int.emod_eq_of_lt (by omega) (by exact_mod_cast hn)
    have hab : ((a : ℤ) * b) % n = 1 := by
      rw [hb, Int.mul_emod, Int.emod_emod_of_dvd _ dvd_rfl, ← Int.mul_emod, mul_comm, key]
    exact_mod_cast hab
  · rw [if_neg hg] at h
    exact absurd h (by simp)

theorem binomial_modEq (n k : ℕ) : (n + 1) ^ k ≡ 1 + k * n [MOD n ^ 2] := by
  induction k with
  | zero => simp [Nat.ModEq.refl]
  | succ k ih =>
    have step : (n + 1) ^ (k + 1) ≡ (1 + k * n) * (n + 1) [MOD n ^ 2] := by
      rw [pow_succ]
      exact ih.mul_right _
    refine step.trans ?_
    have hexp : (1 + k * n) * (n + 1) = 1 + (k + 1) * n + k * n ^ 2 := by ring
    rw [hexp]
    have h0 : k * n ^ 2 ≡ 0 [MOD n ^ 2] :=
      Nat.modEq_zero_iff_dvd.mpr ⟨k, by ring⟩
    calc 1 + (k + 1) * n + k * n ^ 2
        ≡ 1 + (k + 1) * n + 0 [MOD n ^ 2] := h0.add_left _
      _ = 1 + (k + 1) * n := by ring

theorem pow_n1_mod (n k : ℕ) (hn : 2 ≤ n) :
    (n + 1) ^ k % n ^ 2 = 1 + k % n * n := by
  have h3 : k ≡ k % n [MOD n] := (Nat.mod_modEq k n).symm
  have h2 : k * n ≡ k % n * n [MOD n ^ 2] := by
    have := h3.mul_right' (c := n)
    rwa [← pow_two] at this
  have hmod : (n + 1) ^ k ≡ 1 + k % n * n [MOD n ^ 2] :=
    (binomial_modEq n k).trans (h2.add_left 1)
  have hlt : 1 + k % n * n < n ^ 2 := by
    have hk := Nat.mod_lt k (show 0 < n by omega)
    have hsq : n ^ 2 = n * n := sq n
    nlinarith
  calc (n + 1) ^ k % n ^ 2 = (1 + k % n * n) % n ^ 2 := hmod
    _ = 1 + k % n * n := Nat.mod_eq_of_lt hlt

theorem pow_prime_sq (p : ℕ) (hp : p.Prime) (r e : ℕ) (hrp : Nat.Coprime r p)
    (he : p * (p - 1) ∣ e) : r ^ e ≡ 1 [MOD p ^ 2] := by
  obtain ⟨t, ht⟩ := he
  have hcop : Nat.Coprime r (p ^ 2) := hrp.pow_right 2
  have heuler : r ^ Nat.totient (p ^ 2) ≡ 1 [MOD p ^ 2] := Nat.ModEq.pow_totient hcop
  have htot : Nat.totient (p ^ 2) = p * (p - 1) := by
    rw [Nat.totient_prime_pow hp (by norm_num : 0 < 2)]
    norm_num
  rw [htot] at heuler
  calc r ^ e = (r ^ (p * (p - 1))) ^ t := by rw [ht, pow_mul]
    _ ≡ 1 ^ t [MOD p ^ 2] := heuler.pow t
    _ = 1 := one_pow t

theorem carmichael_sq (p q : ℕ) (hp : p.Prime) (hq : q.Prime) (hpq : p ≠ q)
    (r : ℕ) (hr : Nat.Coprime r (p * q)) :
    r ^ (p * q * Nat.lcm (p - 1) (q - 1)) ≡ 1 [MOD (p * q) ^ 2] := by
  have hcopq : Nat.Coprime p q := (Nat.coprime_primes hp hq).mpr hpq
  have h2 : Nat.Coprime (p ^ 2) (q ^ 2) := hcopq.pow 2 2
  have hrp : Nat.Coprime r p := Nat.Coprime.coprime_dvd_right ⟨q, rfl⟩ hr
  have hrq : Nat.Coprime r q := Nat.Coprime.coprime_dvd_right ⟨p, mul_comm p q⟩ hr
  have hdvdp : p * (p - 1) ∣ p * q * Nat.lcm (p - 1) (q - 1) := by
    obtain ⟨t, ht⟩ := Nat.dvd_lcm_left (p - 1) (q - 1)
    exact ⟨q * t, by rw [ht]; ring⟩
  have hdvdq : q * (q - 1) ∣ p * q * Nat.lcm (p - 1) (q - 1) := by
    obtain ⟨t, ht⟩ := Nat.dvd_lcm_right (p - 1) (q - 1)
    exact ⟨p * t, by rw [ht]; ring⟩
  have hP := pow_prime_sq p hp r _ hrp hdvdp
  have hQ := pow_prime_sq q hq r _ hrq hdvdq
  have hmul := (Nat.modEq_and_modEq_iff_modEq_mul h2).mp ⟨hP, hQ⟩
  rwa [show p ^ 2 * q ^ 2 = (p * q) ^ 2 by ring] at hmul

theorem encOf_encrypt (n m r : ℕ) (hr : Nat.Coprime r n) :
    EncOf n m (paillierEncrypt m ⟨n, n + 1⟩ r) := by
  refine ⟨r, hr, ?_⟩
  show paillierEncrypt m ⟨n, n + 1⟩ r ≡ _ [MOD n ^ 2]
  unfold paillierEncrypt
  simp only [powMod_eq]
  calc (n + 1) ^ m % n ^ 2 * (r ^ n % n ^ 2) % n ^ 2
      = (n + 1) ^ m * r ^ n % n ^ 2 := by rw [← Nat.mul_mod]
    _ ≡ (n + 1) ^ m * r ^ n [MOD n ^ 2] := Nat.mod_modEq _ _

theorem encOf_mul (n a b c1 c2 : ℕ) (h1 : EncOf n a c1) (h2 : EncOf n b c2) :
    EncOf n (a + b) (c1 * c2 % n ^ 2) := by
  obtain ⟨r1, hr1, hc1⟩ := h1
  obtain ⟨r2, hr2, hc2⟩ := h2
  refine ⟨r1 * r2, hr1.mul hr2, ?_⟩
  calc c1 * c2 % n ^ 2 ≡ c1 * c2 [MOD n ^ 2] := Nat.mod_modEq _ _
    _ ≡ (n + 1) ^ a * r1 ^ n * ((n + 1) ^ b * r2 ^ n) [MOD n ^ 2] := hc1.mul hc2
    _ = (n + 1) ^ (a + b) * (r1 * r2) ^ n := by rw [pow_add, mul_pow]; ring

theorem encOf_ne_zero (n m c : ℕ) (hn : 2 ≤ n) (h : EncOf n m c) : c ≠ 0 := by
  obtain ⟨r, hr, hc⟩ := h
  intro h0
  subst h0
  have hdvd : n ^ 2 ∣ (n + 1) ^ m * r ^ n :=
    Nat.modEq_zero_iff_dvd.mp hc.symm
  have hsucc : Nat.Coprime (n + 1) n := by simp [Nat.coprime_self_add_left]
  have hcop : Nat.Coprime ((n + 1) ^ m * r ^ n) n :=
    Nat.Coprime.mul (hsucc.pow_left m) (hr.pow_left n)
  have hnd : n ∣ (n + 1) ^ m * r ^ n :=
    dvd_trans (dvd_pow_self n (by norm_num : (2 : ℕ) ≠ 0)) hdvd
  have hgcd1 : Nat.gcd ((n + 1) ^ m * r ^ n) n = 1 := hcop
  have hdg : n ∣ Nat.gcd ((n + 1) ^ m * r ^ n) n := Nat.dvd_gcd hnd dvd_rfl
  rw [hgcd1] at hdg
  have := Nat.le_of_dvd one_pos hdg
  omega

/-- Inversion of a successful `keypairFromPrimes`: the concrete shape of the
generated keys. -/
theorem keypairFromPrimes_eq (p q : ℕ) (kp : Keypair)
    (hkp : keypairFromPrimes p q = some kp) :
    kp.publicKey.n = p * q ∧ kp.publicKey.g = p * q + 1 ∧
    kp.privateKey.n = p * q ∧
    kp.privateKey.lambda = (p - 1) * (q - 1) / Nat.gcd (p - 1) (q - 1) ∧
    modInv (L (powMod (p * q + 1) ((p - 1) * (q - 1) / Nat.gcd (p - 1) (q - 1)) ((p * q) ^ 2)) (p * q)) (p * q)
      = some kp.privateKey.mu := by
  unfold keypairFromPrimes at hkp
  simp only at hkp
  cases hmu : modInv (L (powMod (p * q + 1) ((p - 1) * (q - 1) / Nat.gcd (p - 1) (q - 1)) ((p * q) ^ 2)) (p * q)) (p * q) with
  | none => rw [hmu] at hkp; exact absurd hkp (by simp)
  | some mu =>
    rw [hmu] at hkp
    have := Option.some.inj hkp
    subst this
    exact ⟨rfl, rfl, rfl, rfl, rfl⟩

/-- Master decryption theorem: decrypting any value congruent to an
encryption of `m` with a key generated from distinct primes returns
`m mod n`. -/
theorem decrypt_encOf (p q : ℕ) (hp : p.Prime) (hq : q.Prime) (hpq : p ≠ q)
    (kp : Keypair) (hkp : keypairFromPrimes p q = some kp)
    (m c : ℕ) (hc : EncOf (p * q) m c) :
    paillierDecrypt c kp.privateKey = m % (p * q) := by
  obtain ⟨hn, hg, hpn, hlam, hmu⟩ := keypairFromPrimes_eq p q kp hkp
  set n := p * q with hn_def
  have hn2 : 2 ≤ n := by
    have := hp.two_le
    have := hq.two_le
    calc 2 = 2 * 1 := by ring
      _ ≤ p * q := Nat.mul_le_mul (by omega) (by omega)
  set lam := (p - 1) * (q - 1) / Nat.gcd (p - 1) (q - 1) with hlam_def
  have hlcm : lam = Nat.lcm (p - 1) (q - 1) := rfl
  -- the value mu inverts lam mod n
  have hLval : L (powMod (n + 1) lam (n ^ 2)) n = lam % n := by
    rw [powMod_eq, pow_n1_mod n lam hn2]
    unfold L
    rw [Nat.add_sub_cancel_left, Nat.mul_div_cancel _ (show 0 < n by omega)]
  rw [hLval] at hmu
  have hmul := modInv_mul _ _ _ (by omega) hmu
  have hlmu : lam * kp.privateKey.mu ≡ 1 [MOD n] := by
    have h1 : lam * kp.privateKey.mu ≡ lam % n * kp.privateKey.mu [MOD n] :=
      ((Nat.mod_modEq lam n).symm).mul_right _
    refine h1.trans ?_
    show lam % n * kp.privateKey.mu % n = 1 % n
    rw [hmul, Nat.mod_eq_of_lt (by omega : 1 < n)]
  -- compute c ^ lam mod n²
  obtain ⟨r, hr, hcc⟩ := hc
  have hclam : c ^ lam ≡ (n + 1) ^ (m * lam) [MOD n ^ 2] := by
    have h1 : c ^ lam ≡ ((n + 1) ^ m * r ^ n) ^ lam [MOD n ^ 2] := hcc.pow lam
    have h2 : ((n + 1) ^ m * r ^ n) ^ lam = (n + 1) ^ (m * lam) * r ^ (n * lam) := by
      rw [mul_pow, ← pow_mul, ← pow_mul]
    have h3 : r ^ (n * lam) ≡ 1 [MOD n ^ 2] := by
      have := carmichael_sq p q hp hq hpq r hr
      rwa [← hlcm, ← hn_def] at this
    calc c ^ lam ≡ (n + 1) ^ (m * lam) * r ^ (n * lam) [MOD n ^ 2] := h2 ▸ h1
      _ ≡ (n + 1) ^ (m * lam) * 1 [MOD n ^ 2] := Nat.ModEq.mul_left _ h3
      _ = (n + 1) ^ (m * lam) := by ring
  have hcmod : c ^ lam % n ^ 2 = 1 + m * lam % n * n := by
    calc c ^ lam % n ^ 2 = (n + 1) ^ (m * lam) % n ^ 2 := hclam
      _ = 1 + m * lam % n * n := pow_n1_mod n (m * lam) hn2
  -- assemble the decryption
  show L (powMod c kp.privateKey.lambda (kp.privateKey.n ^ 2)) kp.privateKey.n
      * kp.privateKey.mu % kp.privateKey.n = m % n
  rw [hpn, hlam, powMod_eq, hcmod]
  unfold L
  rw [Nat.add_sub_cancel_left, Nat.mul_div_cancel _ (show 0 < n by omega)]
  -- goal : m * lam % n * mu % n = m % n
  have hfin : m * lam % n * kp.privateKey.mu ≡ m [MOD n] := by
    have h1 : m * lam % n * kp.privateKey.mu ≡ m * lam * kp.privateKey.mu [MOD n] :=
      (Nat.mod_modEq (m * lam) n).mul_right _
    refine h1.trans ?_
    have h2 : m * lam * kp.privateKey.mu = m * (lam * kp.privateKey.mu) := by ring
    rw [h2]
    calc m * (lam * kp.privateKey.mu) ≡ m * 1 [MOD n] := hlmu.mul_left m
      _ = m := by ring
  exact hfin

theorem foldl_paillier_encOf (n : ℕ) (hn : 2 ≤ n)
    {vals ms : List ℕ} (h : List.Forall₂ (fun c m => EncOf n m c) vals ms) :
    ∀ (acc M : ℕ), EncOf n M acc → acc ≠ 0 →
    EncOf n (M + ms.sum)
      (vals.foldl (fun sum value => if sum = 0 then value else sum * value % n ^ 2) acc) := by
  induction h with
  | nil =>
    intro acc M hM _
    simpa using hM
  | @cons c m cl ml hcm htail ih =>
    intro acc M hM hacc
    simp only [List.foldl_cons, if_neg hacc]
    have hstep : EncOf n (M + m) (acc * c % n ^ 2) := encOf_mul n M m acc c hM hcm
    have hne := encOf_ne_zero n (M + m) _ hn hstep
    have hres := ih _ _ hstep hne
    have : M + m + ml.sum = M + (m :: ml).sum := by simp [List.sum_cons]; ring
    rwa [this] at hres

theorem calculatePaillierSum_encOf (pub : PublicKey) (hn : 2 ≤ pub.n)
    {vals ms : List ℕ} (h : List.Forall₂ (fun c m => EncOf pub.n m c) vals ms)
    (hne : vals ≠ []) :
    EncOf pub.n ms.sum (calculatePaillierSum vals pub) := by
  unfold calculatePaillierSum
  rw [if_neg hne]
  cases h with
  | nil => exact absurd rfl hne
  | @cons c m cl ml hcm htail =>
    simp only [List.foldl_cons, if_pos rfl]
    have hc0 := encOf_ne_zero pub.n m c hn hcm
    have := foldl_paillier_encOf pub.n hn htail c m hcm hc0
    simpa using this

theorem sum_map_add (ids : List String) (g h : String → ℚ) :
    (ids.map (fun i => g i + h i)).sum = (ids.map g).sum + (ids.map h).sum := by
  induction ids with
  | nil => simp
  | cons a as ih => simp [ih]; ring

theorem sum_map_ite (k : String) (x : ℚ) (ids : List String) :
    (ids.map (fun i => if k = i then x else 0)).sum = (ids.count k : ℚ) * x := by
  induction ids with
  | nil => simp
  | cons a as ih =>
    simp only [List.map_cons, List.sum_cons, ih, List.count_cons]
    by_cases h : k = a
    · subst h
      simp only [if_pos rfl, beq_self_eq_true, if_pos]
      push_cast
      ring
    · have hba : (a == k) = false := beq_false_of_ne (Ne.symm h)
      simp only [if_neg h, hba, if_neg Bool.false_ne_true]
      push_cast
      ring

theorem sum_filter_partition (f : Transaction → Option String) :
    ∀ (txs : List Transaction) (ids : List String),
    (∀ tx ∈ txs, ∃ k, f tx = some k ∧ ids.count k = 1) →
    (ids.map (fun i => ((txs.filter (fun tx => f tx == some i)).map (·.amount)).sum)).sum
      = (txs.map (·.amount)).sum := by
  intro txs
  induction txs with
  | nil => intro ids _; simp
  | cons t ts ih =>
    intro ids h
    obtain ⟨k, hk, hcount⟩ := h t (by simp)
    have hts : ∀ tx ∈ ts, ∃ k, f tx = some k ∧ ids.count k = 1 :=
      fun tx htx => h tx (by simp [htx])
    have hsplit : (fun i => (((t :: ts).filter (fun tx => f tx == some i)).map (·.amount)).sum)
        = fun i => (if k = i then t.amount else 0)
            + ((ts.filter (fun tx => f tx == some i)).map (·.amount)).sum := by
      funext i
      by_cases hc : k = i
      · subst hc
        have : (f t == some k) = true := by rw [hk]; simp
        simp [List.filter_cons, this]
      · have : (f t == some i) = false := by
          rw [hk]
          simp only [beq_eq_false_iff_ne, ne_eq, Option.some.injEq]
          exact hc
        simp [List.filter_cons, this, hc]
    rw [hsplit, sum_map_add, sum_map_ite, hcount, ih ids hts]
    simp

theorem prime_1009 : Nat.Prime 1009 := by norm_num

theorem prime_1013 : Nat.Prime 1013 := by norm_num

theorem prime_1019 : Nat.Prime 1019 := by norm_num

theorem prime_1021 : Nat.Prime 1021 := by norm_num

theorem kpTC_spec : keypairFromPrimes 1009 1013 =
    some ⟨⟨1022117, 1022118⟩, ⟨1022117, 255024, 749013⟩⟩ := by decide

theorem kpGM_spec : keypairFromPrimes 1019 1021 =
    some ⟨⟨1040399, 1040400⟩, ⟨1040399, 519180, 345439⟩⟩ := by decide

theorem keypair_publicKey_eq (p q : ℕ) (kp : Keypair)
    (hkp : keypairFromPrimes p q = some kp) :
    kp.publicKey = ⟨p * q, p * q + 1⟩ := by
  obtain ⟨hn, hg, -, -, -⟩ := keypairFromPrimes_eq p q kp hkp
  cases hpk : kp.publicKey with
  | mk n' g' =>
    rw [hpk] at hn hg
    simp only at hn hg
    rw [hn, hg]

/-- C1: for every valid Paillier key pair and all plaintexts `a, b < n`,
decrypting the homomorphic addition of an encryption of `a` and an
encryption of `b` yields `(a + b) mod n` (for every pair of random draws
accepted by the coprimality loop). -/
theorem c1_homomorphic_add_decrypt (p q : ℕ) (hp : p.Prime) (hq : q.Prime)
    (hpq : p ≠ q) (kp : Keypair) (hkp : keypairFromPrimes p q = some kp)
    (a b r1 r2 : ℕ) (ha : a < p * q) (hb : b < p * q)
    (hr1 : Nat.gcd r1 (p * q) = 1) (hr2 : Nat.gcd r2 (p * q) = 1) :
    paillierDecrypt
      (add kp.publicKey (paillierEncrypt a kp.publicKey r1)
        (paillierEncrypt b kp.publicKey r2))
      kp.privateKey = (a + b) % (p * q) := by
  have hpub := keypair_publicKey_eq p q kp hkp
  rw [hpub]
  have e1 : EncOf (p * q) a (paillierEncrypt a ⟨p * q, p * q + 1⟩ r1) :=
    encOf_encrypt (p * q) a r1 hr1
  have e2 : EncOf (p * q) b (paillierEncrypt b ⟨p * q, p * q + 1⟩ r2) :=
    encOf_encrypt (p * q) b r2 hr2
  have hadd : EncOf (p * q) (a + b)
      (add ⟨p * q, p * q + 1⟩ (paillierEncrypt a ⟨p * q, p * q + 1⟩ r1)
        (paillierEncrypt b ⟨p * q, p * q + 1⟩ r2)) :=
    encOf_mul (p * q) a b _ _ e1 e2
  exact decrypt_encOf p q hp hq hpq kp hkp (a + b) _ hadd

/-- C1 witness: the concrete scenario of the spec, `p = 1009`, `q = 1013`
(`n = 1022117`), encrypting 1500 and 2500, homomorphically adding and
decrypting yields 4000. -/
theorem c1_homomorphic_add_decrypt_witness :
    paillierDecrypt
      (add (⟨1022117, 1022118⟩ : PublicKey)
        (paillierEncrypt 1500 ⟨1022117, 1022118⟩ 2)
        (paillierEncrypt 2500 ⟨1022117, 1022118⟩ 3))
      (⟨1022117, 255024, 749013⟩ : PrivateKey) = 4000 := by
  have h := c1_homomorphic_add_decrypt 1009 1013 prime_1009 prime_1013 (by decide)
    ⟨⟨1022117, 1022118⟩, ⟨1022117, 255024, 749013⟩⟩ kpTC_spec
    1500 2500 2 3 (by decide) (by decide) (by decide) (by decide)
  exact h.trans (by decide)

/-- C2: for every valid Paillier key pair and every plaintext `m < n`,
decrypting the encryption of `m` returns `m`, for every random draw in
`[1, n]` with `gcd(r, n) = 1` (the values the retry loop can return). -/
theorem c2_encrypt_decrypt_roundtrip (p q : ℕ) (hp : p.Prime) (hq : q.Prime)
    (hpq : p ≠ q) (kp : Keypair) (hkp : keypairFromPrimes p q = some kp)
    (m r : ℕ) (hm : m < p * q) (hr1 : 1 ≤ r) (hr2 : r ≤ p * q)
    (hr : Nat.gcd r (p * q) = 1) :
    paillierDecrypt (paillierEncrypt m kp.publicKey r) kp.privateKey = m := by
  have hpub := keypair_publicKey_eq p q kp hkp
  have e : EncOf (p * q) m (paillierEncrypt m kp.publicKey r) := by
    rw [hpub]; exact encOf_encrypt (p * q) m r hr
  have h := decrypt_encOf p q hp hq hpq kp hkp m _ e
  rwa [Nat.mod_eq_of_lt hm] at h

/-- C2 witness: round trip of the key-test value 12345 of the source under
the first company key. -/
theorem c2_encrypt_decrypt_roundtrip_witness :
    paillierDecrypt (paillierEncrypt 12345 ⟨1022117, 1022118⟩ 7)
      (⟨1022117, 255024, 749013⟩ : PrivateKey) = 12345 :=
  c2_encrypt_decrypt_roundtrip 1009 1013 prime_1009 prime_1013 (by decide)
    ⟨⟨1022117, 1022118⟩, ⟨1022117, 255024, 749013⟩⟩ kpTC_spec
    12345 7 (by decide) (by decide) (by decide) (by decide)

/-- C7 counterexample: key generation performs no validation of its prime
pair.  It succeeds on the equal pair (1009, 1009) and on the equal
non-prime pair (9, 9) instead of failing. -/
theorem c7_keygen_counterexample :
    (keypairFromPrimes 1009 1009).isSome = true ∧
    (keypairFromPrimes 9 9).isSome = true := by
  constructor <;> decide

/-- C7 (amended): key generation never checks primality or distinctness of
the pair; whenever the modular inverse exists it returns the key pair with
`n = p*q`, `g = n+1`, `lambda = (p-1)(q-1)/gcd(p-1,q-1)` and `mu` the
inverse of `L(g^lambda mod n²)` mod `n`; `generateCompanyKeypair` fails
exactly when the company index is out of range of the stored pairs. -/
theorem c7_keygen_formulas :
    (∀ p q kp, keypairFromPrimes p q = some kp →
      kp.publicKey.n = p * q ∧ kp.publicKey.g = p * q + 1 ∧
      kp.privateKey.n = p * q ∧
      kp.privateKey.lambda = (p - 1) * (q - 1) / Nat.gcd (p - 1) (q - 1) ∧
      (1 < p * q →
        L (powMod kp.publicKey.g kp.privateKey.lambda (kp.publicKey.n ^ 2)) kp.publicKey.n
          * kp.privateKey.mu % kp.publicKey.n = 1)) ∧
    (∀ i, companyPrimePairs.length ≤ i →
      generateCompanyKeypair i = .error "Company index exceeds available prime pairs") ∧
    (∀ i, i < companyPrimePairs.length → (generateCompanyKeypair i).isOk = true) := by
  refine ⟨?_, ?_, ?_⟩
  · intro p q kp hkp
    obtain ⟨hn, hg, hpn, hlam, hmu⟩ := keypairFromPrimes_eq p q kp hkp
    refine ⟨hn, hg, hpn, hlam, fun hlt => ?_⟩
    rw [hn, hg, hlam]
    exact modInv_mul _ _ _ hlt hmu
  · intro i hi
    unfold generateCompanyKeypair
    rw [if_pos hi]
  · intro i hi
    have hi8 : i < 8 := by simpa [companyPrimePairs] using hi
    interval_cases i <;> decide

/-- C7 witness: the first company pair instantiates the formulas, index 8 is
rejected, index 0 succeeds. -/
theorem c7_keygen_formulas_witness :
    (⟨⟨1022117, 1022118⟩, ⟨1022117, 255024, 749013⟩⟩ : Keypair).privateKey.lambda
        = (1009 - 1) * (1013 - 1) / Nat.gcd (1009 - 1) (1013 - 1) ∧
    L (powMod 1022118 255024 (1022117 ^ 2)) 1022117 * 749013 % 1022117 = 1 ∧
    generateCompanyKeypair 8 = .error "Company index exceeds available prime pairs" ∧
    (generateCompanyKeypair 0).isOk = true := by
  obtain ⟨h1, h2, h3⟩ := c7_keygen_formulas
  have hk := h1 1009 1013 ⟨⟨1022117, 1022118⟩, ⟨1022117, 255024, 749013⟩⟩ kpTC_spec
  exact ⟨hk.2.2.2.1, hk.2.2.2.2 (by decide), h2 8 (by decide), h3 0 (by decide)⟩

/-- C8 counterexample: the `do { r = randBetween } while (gcd(r,n) != 1)`
loop has no retry bound and no error outcome.  On a tape of draws all
sharing a factor with `n` it is still running after a million draws — far
beyond any generous bound — and never exits at all. -/
theorem c8_retry_loop_counterexample :
    loopStillRunning 1022117 constBadTape 1000000 = true ∧
    (loopExits 1022117 constBadTape ↔ False) := by
  constructor
  · simp only [loopStillRunning, decide_eq_true_eq]
    intro i _
    show Nat.gcd 1009 1022117 ≠ 1
    decide
  · constructor
    · intro h
      obtain ⟨i, hi⟩ := h
      have hgc : Nat.gcd 1009 1022117 = 1 := hi
      exact absurd hgc (by decide)
    · exact False.elim

/-- C8 (amended): the retry loop is unbounded and raises no error: after `k`
draws it is still running exactly when none of them was coprime with `n`;
on a tape with no coprime draw it runs forever; and when it exits it
returns the first coprime draw. -/
theorem c8_retry_loop_unbounded (n : ℕ) (tape : ℕ → ℕ) :
    (∀ k, loopStillRunning n tape k = true ↔ ∀ i < k, Nat.gcd (tape i) n ≠ 1) ∧
    (¬loopExits n tape → ∀ k, loopStillRunning n tape k = true) ∧
    (∀ h : loopExits n tape,
      Nat.gcd (sampledR n tape h) n = 1 ∧ ∀ i < Nat.find h, Nat.gcd (tape i) n ≠ 1) := by
  refine ⟨fun k => by simp [loopStillRunning], ?_, ?_⟩
  · intro hne k
    simp only [loopStillRunning, decide_eq_true_eq]
    intro i _
    exact fun hg => hne ⟨i, hg⟩
  · intro h
    exact ⟨Nat.find_spec h, fun i hi => Nat.find_min h hi⟩

/-- C8 witness: on the all-bad tape the loop is still running after 5 draws;
on a tape whose first draw is 2 the loop exits with a coprime value. -/
theorem c8_retry_loop_unbounded_witness :
    loopStillRunning 1022117 constBadTape 5 = true ∧
    Nat.gcd (sampledR 1022117 constGoodTape ⟨0, by decide⟩) 1022117 = 1 := by
  constructor
  · exact (c8_retry_loop_unbounded 1022117 constBadTape).2.1
      (fun h => by
        obtain ⟨i, hi⟩ := h
        exact absurd (show Nat.gcd 1009 1022117 = 1 from hi) (by decide)) 5
  · exact ((c8_retry_loop_unbounded 1022117 constGoodTape).2.2 ⟨0, by decide⟩).1

theorem verify_sender_eq (cs : List Company) (t : Transaction) (cid : String)
    (c : Company) (hl : companyLookup cs cid = some c)
    (hsid : t.sender_id = some cid) :
    verifyDualEncryption cs t cid = .ok
      { role := "sender", canDecrypt := true
        verified := decide
          (|(paillierDecrypt t.heSender c.paillierPrivateKey : ℚ) / 100 - t.amount| < 1 / 100)
        decryptedAmount := some ((paillierDecrypt t.heSender c.paillierPrivateKey : ℚ) / 100)
        decryptedCents := some (paillierDecrypt t.heSender c.paillierPrivateKey)
        message := if decide
            (|(paillierDecrypt t.heSender c.paillierPrivateKey : ℚ) / 100 - t.amount| < 1 / 100)
          then "Amount verification successful" else "Amount mismatch detected" } := by
  unfold verifyDualEncryption
  rw [hl]
  have hs : (t.sender_id == some cid) = true := by rw [hsid]; simp
  simp only [hs, if_true]

theorem verify_recipient_eq (cs : List Company) (t : Transaction) (cid : String)
    (c : Company) (hl : companyLookup cs cid = some c)
    (hsne : (t.sender_id == some cid) = false)
    (hrid : t.recipient_id = some cid) :
    verifyDualEncryption cs t cid = .ok
      { role := "recipient", canDecrypt := true
        verified := decide
          (|(paillierDecrypt t.heRecipient c.paillierPrivateKey : ℚ) / 100 - t.amount| < 1 / 100)
        decryptedAmount := some ((paillierDecrypt t.heRecipient c.paillierPrivateKey : ℚ) / 100)
        decryptedCents := some (paillierDecrypt t.heRecipient c.paillierPrivateKey)
        message := if decide
            (|(paillierDecrypt t.heRecipient c.paillierPrivateKey : ℚ) / 100 - t.amount| < 1 / 100)
          then "Amount verification successful" else "Amount mismatch detected" } := by
  unfold verifyDualEncryption
  rw [hl]
  have hr : (t.recipient_id == some cid) = true := by rw [hrid]; simp
  simp only [hsne, hr, if_true, Bool.false_eq_true, if_false]

theorem verify_thirdparty_eq (cs : List Company) (t : Transaction) (cid : String)
    (c : Company) (hl : companyLookup cs cid = some c)
    (hsne : (t.sender_id == some cid) = false)
    (hrne : (t.recipient_id == some cid) = false) :
    verifyDualEncryption cs t cid = .ok
      { role := "third_party", canDecrypt := false, verified := false
        decryptedAmount := none, decryptedCents := none
        message := "Company is not involved in this transaction" } := by
  unfold verifyDualEncryption
  rw [hl]
  simp only [hsne, hrne, Bool.false_eq_true, if_false]

/-- C5: verify invoked by a registered third party on a dual-encrypted
transaction between A and B returns the third-party result (no error),
while A and B both get `canDecrypt = true`. -/
theorem c5_role_isolation (cs : List Company) (t : Transaction)
    (aId bId cId : String) (hA : t.sender_id = some aId)
    (hB : t.recipient_id = some bId)
    (cA cB cC : Company)
    (hlA : companyLookup cs aId = some cA)
    (hlB : companyLookup cs bId = some cB)
    (hlC : companyLookup cs cId = some cC)
    (hCA : cId ≠ aId) (hCB : cId ≠ bId) :
    verifyDualEncryption cs t cId = .ok
      { role := "third_party", canDecrypt := false, verified := false
        decryptedAmount := none, decryptedCents := none
        message := "Company is not involved in this transaction" } ∧
    (∃ res, verifyDualEncryption cs t aId = .ok res ∧ res.canDecrypt = true) ∧
    (∃ res, verifyDualEncryption cs t bId = .ok res ∧ res.canDecrypt = true) := by
  refine ⟨?_, ?_, ?_⟩
  · have hs : (t.sender_id == some cId) = false := by
      rw [hA]
      exact beq_eq_false_iff_ne.mpr (by simpa using Ne.symm hCA)
    have hr : (t.recipient_id == some cId) = false := by
      rw [hB]
      exact beq_eq_false_iff_ne.mpr (by simpa using Ne.symm hCB)
    exact verify_thirdparty_eq cs t cId cC hlC hs hr
  · exact ⟨_, verify_sender_eq cs t aId cA hlA hA, rfl⟩
  · by_cases hab : t.sender_id == some bId
    · obtain ⟨cB', hlB'⟩ : ∃ c, companyLookup cs bId = some c := ⟨cB, hlB⟩
      have hsid : t.sender_id = some bId := by
        rw [hA] at hab ⊢
        simpa using hab
      exact ⟨_, verify_sender_eq cs t bId cB hlB hsid, rfl⟩
    · exact ⟨_, verify_recipient_eq cs t bId cB hlB (by simpa using hab) hB, rfl⟩

/-- C5 witness: a transaction from TC001 to GM002 checked by SC003 and by
both parties. -/
theorem c5_role_isolation_witness :
    verifyDualEncryption fixtureCompanies
      ⟨1, "TechCorp Solutions", "Global Manufacturing Inc", 15, some "TC001",
        some "GM002", 440693833735, 780776347594⟩ "SC003" = .ok
      { role := "third_party", canDecrypt := false, verified := false
        decryptedAmount := none, decryptedCents := none
        message := "Company is not involved in this transaction" } ∧
    (∃ res, verifyDualEncryption fixtureCompanies
      ⟨1, "TechCorp Solutions", "Global Manufacturing Inc", 15, some "TC001",
        some "GM002", 440693833735, 780776347594⟩ "TC001" = .ok res ∧
      res.canDecrypt = true) ∧
    (∃ res, verifyDualEncryption fixtureCompanies
      ⟨1, "TechCorp Solutions", "Global Manufacturing Inc", 15, some "TC001",
        some "GM002", 440693833735, 780776347594⟩ "GM002" = .ok res ∧
      res.canDecrypt = true) :=
  c5_role_isolation fixtureCompanies
    ⟨1, "TechCorp Solutions", "Global Manufacturing Inc", 15, some "TC001",
      some "GM002", 440693833735, 780776347594⟩
    "TC001" "GM002" "SC003" rfl rfl companyTC companyGM companySC
    (by decide) (by decide) (by decide) (by decide) (by decide)

/-- C4 counterexample: on a wrapped-around amount the decrypted value does
equal `amountCents mod n` (477883 = 1500000 mod 1022117), yet `verified`
is `false`: the code compares the decrypted dollars against the stored
decimal amount, not against `amountCents mod n`. -/
theorem c4_verify_counterexample :
    cxTransaction.heSender = paillierEncrypt 1500000 ⟨1022117, 1022118⟩ 2 ∧
    1500000 = (jsRound (cxTransaction.amount * 100)).toNat ∧
    ∃ res, verifyDualEncryption fixtureCompanies cxTransaction "TC001" = .ok res ∧
      res.canDecrypt = true ∧
      res.decryptedCents = some (1500000 % 1022117) ∧
      res.verified = false := by
  refine ⟨by decide, ?_, ?_⟩
  · show (1500000 : ℕ) = (jsRound ((15000 : ℚ) * 100)).toNat
    have : jsRound ((15000 : ℚ) * 100) = 1500000 := by
      unfold jsRound
      norm_num
    rw [this]
    rfl
  · rw [verify_sender_eq fixtureCompanies cxTransaction "TC001" companyTC
      (by decide) rfl]
    refine ⟨_, rfl, rfl, ?_, ?_⟩
    · show some (paillierDecrypt 929827924085 ⟨1022117, 255024, 749013⟩)
        = some (1500000 % 1022117)
      decide
    · show decide
        (|(paillierDecrypt 929827924085 (⟨1022117, 255024, 749013⟩ : PrivateKey) : ℚ) / 100
          - cxTransaction.amount| < 1 / 100) = false
      have hd : paillierDecrypt 929827924085 (⟨1022117, 255024, 749013⟩ : PrivateKey)
          = 477883 := by decide
      rw [hd]
      show decide (|(477883 : ℚ) / 100 - (15000 : ℚ)| < 1 / 100) = false
      simp only [decide_eq_false_iff_not]
      rw [show (477883 : ℚ) / 100 - 15000 = -(1022117 / 100) by norm_num, abs_neg,
        abs_of_nonneg (by norm_num : (0 : ℚ) ≤ 1022117 / 100)]
      norm_num

/-- C4 (amended): for a claimant that is the sender or recipient of the
transaction, verify decrypts the claimant ciphertext with the claimant own
own private key (yielding `amountCents mod n` for a well-formed
ciphertext), returns `canDecrypt = true` and the decrypted amount, and
returns `verified = true` exactly when the decrypted cents divided by 100
are within 0.01 of the stored decimal amount (not when the
decryption equals `amountCents mod n`). -/
theorem c4_verify_own_side (cs : List Company) (t : Transaction)
    (p q : ℕ) (hp : p.Prime) (hq : q.Prime) (hpq : p ≠ q)
    (kp : Keypair) (hkp : keypairFromPrimes p q = some kp)
    (claimant : Company) (cid : String)
    (hl : companyLookup cs cid = some claimant)
    (hpriv : claimant.paillierPrivateKey = kp.privateKey)
    (cents r : ℕ) (hr : Nat.gcd r (p * q) = 1)
    (hrole : (t.sender_id = some cid ∧ t.heSender = paillierEncrypt cents kp.publicKey r) ∨
             ((t.sender_id == some cid) = false ∧ t.recipient_id = some cid ∧
              t.heRecipient = paillierEncrypt cents kp.publicKey r)) :
    ∃ res, verifyDualEncryption cs t cid = .ok res ∧
      (res.role = "sender" ∨ res.role = "recipient") ∧
      res.canDecrypt = true ∧
      res.decryptedCents = some (cents % (p * q)) ∧
      res.decryptedAmount = some (((cents % (p * q) : ℕ) : ℚ) / 100) ∧
      (res.verified = true ↔
        |((cents % (p * q) : ℕ) : ℚ) / 100 - t.amount| < 1 / 100) := by
  have hdec : paillierDecrypt (paillierEncrypt cents kp.publicKey r) kp.privateKey
      = cents % (p * q) := by
    have hpub := keypair_publicKey_eq p q kp hkp
    refine decrypt_encOf p q hp hq hpq kp hkp cents _ ?_
    rw [hpub]
    exact encOf_encrypt (p * q) cents r hr
  rcases hrole with ⟨hsid, hct⟩ | ⟨hsne, hrid, hct⟩
  · rw [verify_sender_eq cs t cid claimant hl hsid, hct, hpriv, hdec]
    exact ⟨_, rfl, Or.inl rfl, rfl, rfl, rfl, by simp⟩
  · rw [verify_recipient_eq cs t cid claimant hl hsne hrid, hct, hpriv, hdec]
    exact ⟨_, rfl, Or.inr rfl, rfl, rfl, rfl, by simp⟩

/-- C4 witness: TC001 verifies a well-formed $15.00 sender-side ciphertext. -/
theorem c4_verify_own_side_witness :
    ∃ res, verifyDualEncryption fixtureCompanies
      ⟨1, "TechCorp Solutions", "Global Manufacturing Inc", 15, some "TC001",
        some "GM002", 440693833735, 780776347594⟩ "TC001" = .ok res ∧
      (res.role = "sender" ∨ res.role = "recipient") ∧
      res.canDecrypt = true ∧
      res.decryptedCents = some (1500 % (1009 * 1013)) ∧
      res.decryptedAmount = some (((1500 % (1009 * 1013) : ℕ) : ℚ) / 100) ∧
      (res.verified = true ↔
        |((1500 % (1009 * 1013) : ℕ) : ℚ) / 100
          - (⟨1, "TechCorp Solutions", "Global Manufacturing Inc", 15, some "TC001",
              some "GM002", 440693833735, 780776347594⟩ : Transaction).amount| < 1 / 100) :=
  c4_verify_own_side fixtureCompanies
    ⟨1, "TechCorp Solutions", "Global Manufacturing Inc", 15, some "TC001",
      some "GM002", 440693833735, 780776347594⟩
    1009 1013 prime_1009 prime_1013 (by decide)
    ⟨⟨1022117, 1022118⟩, ⟨1022117, 255024, 749013⟩⟩ kpTC_spec
    companyTC "TC001" (by decide) rfl 1500 2 (by decide)
    (Or.inl ⟨rfl, by decide⟩)

/-- Encryption under `g = n + 1` depends on the plaintext only through its
residue mod `n`: the same random draw gives the same ciphertext for `m`
and for `m mod n`. -/
theorem paillierEncrypt_mod (n m r : ℕ) (hn : 2 ≤ n) :
    paillierEncrypt m ⟨n, n + 1⟩ r = paillierEncrypt (m % n) ⟨n, n + 1⟩ r := by
  show powMod (n + 1) m (n ^ 2) * powMod r n (n ^ 2) % n ^ 2
    = powMod (n + 1) (m % n) (n ^ 2) * powMod r n (n ^ 2) % n ^ 2
  rw [powMod_eq (n + 1) m, powMod_eq (n + 1) (m % n), pow_n1_mod n m hn,
    pow_n1_mod n (m % n) hn, Nat.mod_mod_of_dvd m dvd_rfl]

theorem encrypt_reduce_decrypt (p q : ℕ) (hp : p.Prime) (hq : q.Prime)
    (hpq : p ≠ q) (kp : Keypair) (hkp : keypairFromPrimes p q = some kp)
    (m r : ℕ) (hr : Nat.gcd r (p * q) = 1) :
    paillierEncrypt m kp.publicKey r = paillierEncrypt (m % (p * q)) kp.publicKey r ∧
    paillierDecrypt (paillierEncrypt m kp.publicKey r) kp.privateKey = m % (p * q) := by
  have hpub := keypair_publicKey_eq p q kp hkp
  have hn : 2 ≤ p * q :=
    calc 2 = 2 * 1 := by ring
      _ ≤ p * q := Nat.mul_le_mul (by have := hp.two_le; omega) (by have := hq.two_le; omega)
  constructor
  · rw [hpub]
    exact paillierEncrypt_mod (p * q) m r hn
  · refine decrypt_encOf p q hp hq hpq kp hkp m _ ?_
    rw [hpub]
    exact encOf_encrypt (p * q) m r hr

/-- C6: `dualEncryptAmount` converts the decimal amount to integer cents via
`round(amount * 100)` and the ciphertext it produces under each party key
is exactly the encryption of the reduced plaintext `amountCents mod
n_party` (the two encryptions independent, one under each public key), so
the plaintext recoverable under each party key is `amountCents mod
n_party`. -/
theorem c6_dual_encrypt_reduces (cs : List Company) (amount : ℚ)
    (sid rid : String) (rs rr : ℕ) (sender recipient : Company)
    (hs : companyLookup cs sid = some sender)
    (hrcp : companyLookup cs rid = some recipient)
    (ps qs : ℕ) (hps : ps.Prime) (hqs : qs.Prime) (hpqs : ps ≠ qs)
    (kps : Keypair) (hkps : keypairFromPrimes ps qs = some kps)
    (hsk : sender.paillierPublicKey = kps.publicKey)
    (hskp : sender.paillierPrivateKey = kps.privateKey)
    (pr qr : ℕ) (hpr : pr.Prime) (hqr : qr.Prime) (hpqr : pr ≠ qr)
    (kpr : Keypair) (hkpr : keypairFromPrimes pr qr = some kpr)
    (hrk : recipient.paillierPublicKey = kpr.publicKey)
    (hrkp : recipient.paillierPrivateKey = kpr.privateKey)
    (cents : ℕ) (hcents : jsRound (amount * 100) = (cents : ℤ))
    (hgs : Nat.gcd rs (ps * qs) = 1) (hgr : Nat.gcd rr (pr * qr) = 1) :
    ∃ d, dualEncryptAmount cs amount sid rid rs rr = .ok d ∧
      d.amountInCents = jsRound (amount * 100) ∧
      d.senderEncrypted = paillierEncrypt (cents % (ps * qs)) sender.paillierPublicKey rs ∧
      d.recipientEncrypted = paillierEncrypt (cents % (pr * qr)) recipient.paillierPublicKey rr ∧
      paillierDecrypt d.senderEncrypted sender.paillierPrivateKey = cents % (ps * qs) ∧
      paillierDecrypt d.recipientEncrypted recipient.paillierPrivateKey = cents % (pr * qr) := by
  have hok : dualEncryptAmount cs amount sid rid rs rr = .ok
      { originalAmount := amount
        amountInCents := jsRound (amount * 100)
        senderId := sid
        recipientId := rid
        senderEncrypted := paillierEncrypt (jsRound (amount * 100)).toNat sender.paillierPublicKey rs
        recipientEncrypted := paillierEncrypt (jsRound (amount * 100)).toNat recipient.paillierPublicKey rr
        senderPaillierN := sender.paillierPublicKey.n
        recipientPaillierN := recipient.paillierPublicKey.n } := by
    unfold dualEncryptAmount
    rw [hs, hrcp]
  have htn : (jsRound (amount * 100)).toNat = cents := by
    rw [hcents]
    exact Int.toNat_natCast cents
  have hsenc := encrypt_reduce_decrypt ps qs hps hqs hpqs kps hkps cents rs hgs
  have hrenc := encrypt_reduce_decrypt pr qr hpr hqr hpqr kpr hkpr cents rr hgr
  refine ⟨_, hok, rfl, ?_, ?_, ?_, ?_⟩
  · show paillierEncrypt (jsRound (amount * 100)).toNat sender.paillierPublicKey rs
      = paillierEncrypt (cents % (ps * qs)) sender.paillierPublicKey rs
    rw [htn, hsk]
    exact hsenc.1
  · show paillierEncrypt (jsRound (amount * 100)).toNat recipient.paillierPublicKey rr
      = paillierEncrypt (cents % (pr * qr)) recipient.paillierPublicKey rr
    rw [htn, hrk]
    exact hrenc.1
  · show paillierDecrypt
      (paillierEncrypt (jsRound (amount * 100)).toNat sender.paillierPublicKey rs)
      sender.paillierPrivateKey = cents % (ps * qs)
    rw [htn, hsk, hskp]
    exact hsenc.2
  · show paillierDecrypt
      (paillierEncrypt (jsRound (amount * 100)).toNat recipient.paillierPublicKey rr)
      recipient.paillierPrivateKey = cents % (pr * qr)
    rw [htn, hrk, hrkp]
    exact hrenc.2

/-- C6 witness: $15.00 from TC001 to GM002; cents = 1500, reduced under both
moduli. -/
theorem c6_dual_encrypt_reduces_witness :
    ∃ d, dualEncryptAmount fixtureCompanies 15 "TC001" "GM002" 2 3 = .ok d ∧
      d.amountInCents = jsRound ((15 : ℚ) * 100) ∧
      d.senderEncrypted = paillierEncrypt (1500 % (1009 * 1013)) companyTC.paillierPublicKey 2 ∧
      d.recipientEncrypted = paillierEncrypt (1500 % (1019 * 1021)) companyGM.paillierPublicKey 3 ∧
      paillierDecrypt d.senderEncrypted companyTC.paillierPrivateKey = 1500 % (1009 * 1013) ∧
      paillierDecrypt d.recipientEncrypted companyGM.paillierPrivateKey = 1500 % (1019 * 1021) :=
  c6_dual_encrypt_reduces fixtureCompanies 15 "TC001" "GM002" 2 3
    companyTC companyGM (by decide) (by decide)
    1009 1013 prime_1009 prime_1013 (by decide)
    ⟨⟨1022117, 1022118⟩, ⟨1022117, 255024, 749013⟩⟩ kpTC_spec rfl rfl
    1019 1021 prime_1019 prime_1021 (by decide)
    ⟨⟨1040399, 1040400⟩, ⟨1040399, 519180, 345439⟩⟩ kpGM_spec rfl rfl
    1500 (by unfold jsRound; norm_num) (by decide) (by decide)

/-- C3 (amended): for a party and direction with a non-empty set of matching
transactions, the accumulator is the fold of homomorphic multiplication of
the matching ciphertexts under the own public key of the party, and decrypting
that accumulator with the own private key of the party yields the sum of the
contributing cents plaintexts mod the party modulus `n`; the cleartext total
`actualSum` reported alongside it, however, is computed directly as the
plaintext sum of the matching decimal dollar amounts, not by decrypting
the accumulator. -/
theorem c3_accumulator_fold (cs : List Company) (txs : List Transaction)
    (cid dir : String) (company : Company)
    (hl : companyLookup cs cid = some company)
    (p q : ℕ) (hp : p.Prime) (hq : q.Prime) (hpq : p ≠ q)
    (kp : Keypair) (hkp : keypairFromPrimes p q = some kp)
    (hpub : company.paillierPublicKey = kp.publicKey)
    (hpriv : company.paillierPrivateKey = kp.privateKey)
    (ms : List ℕ)
    (henc : List.Forall₂ (fun c m => EncOf (p * q) m c)
      ((relevantTransactions txs cid dir).map
        (fun tx => if dir == "sent" then tx.heSender else tx.heRecipient)) ms)
    (hne : relevantTransactions txs cid dir ≠ []) :
    ∃ s, calculateCompanyHomomorphicSum cs txs cid dir = .ok s ∧
      s.homomorphicSum = some (calculatePaillierSum
        ((relevantTransactions txs cid dir).map
          (fun tx => if dir == "sent" then tx.heSender else tx.heRecipient))
        company.paillierPublicKey) ∧
      paillierDecrypt (calculatePaillierSum
        ((relevantTransactions txs cid dir).map
          (fun tx => if dir == "sent" then tx.heSender else tx.heRecipient))
        company.paillierPublicKey) company.paillierPrivateKey = ms.sum % (p * q) ∧
      s.actualSum = ((relevantTransactions txs cid dir).map (·.amount)).sum := by
  have hcomp := keypairFromPrimes_eq p q kp hkp
  have hpn : company.paillierPublicKey.n = p * q := by rw [hpub]; exact hcomp.1
  have h2n : 2 ≤ company.paillierPublicKey.n := by
    rw [hpn]
    calc 2 = 2 * 1 := by ring
      _ ≤ p * q := Nat.mul_le_mul (by have := hp.two_le; omega) (by have := hq.two_le; omega)
  have hencn : List.Forall₂ (fun c m => EncOf company.paillierPublicKey.n m c)
      ((relevantTransactions txs cid dir).map
        (fun tx => if dir == "sent" then tx.heSender else tx.heRecipient)) ms := by
    rw [hpn]
    exact henc
  have hvals_ne : (relevantTransactions txs cid dir).map
      (fun tx => if dir == "sent" then tx.heSender else tx.heRecipient) ≠ [] :=
    fun h => hne (List.map_eq_nil_iff.mp h)
  have hEnc := calculatePaillierSum_encOf company.paillierPublicKey h2n hencn hvals_ne
  rw [hpn] at hEnc
  have hdec := decrypt_encOf p q hp hq hpq kp hkp ms.sum _ hEnc
  rw [← hpriv] at hdec
  have hlen : ¬(relevantTransactions txs cid dir).length = 0 := by
    simpa [List.length_eq_zero] using hne
  have hok : calculateCompanyHomomorphicSum cs txs cid dir = .ok
      { transactionCount := (relevantTransactions txs cid dir).length
        homomorphicSum := some (calculatePaillierSum
          ((relevantTransactions txs cid dir).map
            (fun tx => if dir == "sent" then tx.heSender else tx.heRecipient))
          company.paillierPublicKey)
        actualSum := ((relevantTransactions txs cid dir).map (·.amount)).sum } := by
    unfold calculateCompanyHomomorphicSum
    rw [hl]
    simp only [if_neg hlen]
  exact ⟨_, hok, rfl, hdec, rfl⟩

/-- C3 counterexample: one sent transaction of $15,000.00 whose ciphertext
decrypts to 477,883 cents (wrapped mod n), while the reported cleartext
total `actualSum` is the plaintext 15,000 dollars — the reported total is
not obtained by decrypting the accumulator (it differs from the decrypted
value both as cents and after conversion to dollars). -/
theorem c3_accumulator_counterexample :
    ∃ s, calculateCompanyHomomorphicSum fixtureCompanies [cxTransaction] "TC001" "sent"
        = .ok s ∧
      s.homomorphicSum = some 929827924085 ∧
      paillierDecrypt 929827924085 companyTC.paillierPrivateKey = 477883 ∧
      s.actualSum = 15000 ∧
      (15000 : ℚ) ≠ ((477883 : ℕ) : ℚ) ∧
      (15000 : ℚ) ≠ ((477883 : ℕ) : ℚ) / 100 := by
  refine ⟨_, rfl, ?_, by decide, ?_, by norm_num, by norm_num⟩
  · show some (calculatePaillierSum
      ((relevantTransactions [cxTransaction] "TC001" "sent").map
        (fun tx => if "sent" == "sent" then tx.heSender else tx.heRecipient))
      companyTC.paillierPublicKey) = some 929827924085
    decide
  · show ((relevantTransactions [cxTransaction] "TC001" "sent").map (·.amount)).sum
      = (15000 : ℚ)
    simp [relevantTransactions, cxTransaction]

/-- C3 witness: accumulating the two sent transactions of TC001; the accumulator
decrypts to (1500 + 2500) mod n while the reported total is the plaintext
dollar sum. -/
theorem c3_accumulator_fold_witness :
    ∃ s, calculateCompanyHomomorphicSum fixtureCompanies [w3t1, w3t2] "TC001" "sent"
        = .ok s ∧
      s.homomorphicSum = some (calculatePaillierSum
        ((relevantTransactions [w3t1, w3t2] "TC001" "sent").map
          (fun tx => if "sent" == "sent" then tx.heSender else tx.heRecipient))
        companyTC.paillierPublicKey) ∧
      paillierDecrypt (calculatePaillierSum
        ((relevantTransactions [w3t1, w3t2] "TC001" "sent").map
          (fun tx => if "sent" == "sent" then tx.heSender else tx.heRecipient))
        companyTC.paillierPublicKey) companyTC.paillierPrivateKey
        = ([1500, 2500] : List ℕ).sum % (1009 * 1013) ∧
      s.actualSum = ((relevantTransactions [w3t1, w3t2] "TC001" "sent").map (·.amount)).sum := by
  have h1 : EncOf (1009 * 1013) 1500 (440693833735 : ℕ) := by
    have h := encOf_encrypt (1009 * 1013) 1500 2 (by decide)
    rwa [(by decide : paillierEncrypt 1500 ⟨1009 * 1013, 1009 * 1013 + 1⟩ 2 = 440693833735)] at h
  have h2 : EncOf (1009 * 1013) 2500 (780776347594 : ℕ) := by
    have h := encOf_encrypt (1009 * 1013) 2500 3 (by decide)
    rwa [(by decide : paillierEncrypt 2500 ⟨1009 * 1013, 1009 * 1013 + 1⟩ 3 = 780776347594)] at h
  exact c3_accumulator_fold fixtureCompanies [w3t1, w3t2] "TC001" "sent" companyTC
    (by decide) 1009 1013 prime_1009 prime_1013 (by decide)
    ⟨⟨1022117, 1022118⟩, ⟨1022117, 255024, 749013⟩⟩ kpTC_spec rfl rfl
    [1500, 2500]
    (List.Forall₂.cons h1 (List.Forall₂.cons h2 List.Forall₂.nil))
    (List.cons_ne_nil _ _)

theorem homSum_ok_actualSum (cs : List Company) (txs : List Transaction)
    (cid dir : String) (s : HomomorphicSumResult)
    (h : calculateCompanyHomomorphicSum cs txs cid dir = .ok s) :
    s.actualSum = ((relevantTransactions txs cid dir).map (·.amount)).sum := by
  unfold calculateCompanyHomomorphicSum at h
  cases hl : companyLookup cs cid with
  | none => rw [hl] at h; exact absurd h (by simp)
  | some company =>
    rw [hl] at h
    by_cases hlen : (relevantTransactions txs cid dir).length = 0
    · simp only [if_pos hlen] at h
      have hs := Except.ok.inj h
      rw [← hs]
      rw [List.length_eq_zero.mp hlen]
      simp
    · simp only [if_neg hlen] at h
      have hs := Except.ok.inj h
      rw [← hs]

theorem statement_ok_actuals (cs : List Company) (c : Company)
    (txs : List Transaction) (st : CompanyStatement)
    (h : generateCompanyFinancialStatement cs c txs = .ok st) :
    st.actualSent = ((relevantTransactions txs c.id "sent").map (·.amount)).sum ∧
    st.actualReceived = ((relevantTransactions txs c.id "received").map (·.amount)).sum := by
  unfold generateCompanyFinancialStatement at h
  cases h1 : calculateCompanyHomomorphicSum cs txs c.id "sent" with
  | error e => rw [h1] at h; exact absurd h (by simp [Bind.bind, Except.bind])
  | ok s1 =>
    rw [h1] at h
    cases h2 : calculateCompanyHomomorphicSum cs txs c.id "received" with
    | error e =>
      rw [h2] at h
      exact absurd h (by simp [Bind.bind, Except.bind])
    | ok s2 =>
      rw [h2] at h
      simp only [Bind.bind, Except.bind, pure, Except.pure] at h
      have hs := Except.ok.inj h
      rw [← hs]
      exact ⟨homSum_ok_actualSum cs txs c.id "sent" s1 h1,
        homSum_ok_actualSum cs txs c.id "received" s2 h2⟩

theorem forall₂_map_eq {α β : Type} {R : α → β → Prop} {l1 : List α}
    {l2 : List β} (h : List.Forall₂ R l1 l2) (f : β → ℚ) (g : α → ℚ)
    (hfg : ∀ a b, R a b → f b = g a) :
    l2.map f = l1.map g := by
  induction h with
  | nil => rfl
  | cons h1 h2 ih => simp only [List.map_cons, ih, hfg _ _ h1]

/-- C9: the network is reported balanced exactly when the totals of the
per-party declared sent and received sums differ by less than one cent;
and on a closed transaction set — sender and recipient of every transaction
being exactly one registered company — the freshly generated statements
always balance. -/
theorem c9_network_balance :
    (∀ txs results, (verifyNetworkIntegrity txs results).networkBalanced = true ↔
      |(results.map (·.actualReceived)).sum - (results.map (·.actualSent)).sum| < 1 / 100) ∧
    (∀ (companies : List Company) (txs : List Transaction) (stmts : List CompanyStatement),
      List.Forall₂ (fun c s => generateCompanyFinancialStatement companies c txs = .ok s)
        companies stmts →
      (∀ tx ∈ txs, ∃ k, tx.sender_id = some k ∧ (companies.map (·.id)).count k = 1) →
      (∀ tx ∈ txs, ∃ k, tx.recipient_id = some k ∧ (companies.map (·.id)).count k = 1) →
      (verifyNetworkIntegrity txs stmts).networkBalanced = true) := by
  constructor
  · intro txs results
    unfold verifyNetworkIntegrity
    simp only [decide_eq_true_eq]
  · intro companies txs stmts hok hsend hrecv
    have hsent : stmts.map (·.actualSent)
        = companies.map (fun c => ((txs.filter (fun tx => tx.sender_id == some c.id)).map (·.amount)).sum) := by
      refine forall₂_map_eq hok _ _ ?_
      intro c s hcs
      have h := (statement_ok_actuals companies c txs s hcs).1
      rwa [show relevantTransactions txs c.id "sent"
        = txs.filter (fun tx => tx.sender_id == some c.id) from rfl] at h
    have hrecd : stmts.map (·.actualReceived)
        = companies.map (fun c => ((txs.filter (fun tx => tx.recipient_id == some c.id)).map (·.amount)).sum) := by
      refine forall₂_map_eq hok _ _ ?_
      intro c s hcs
      have h := (statement_ok_actuals companies c txs s hcs).2
      rwa [show relevantTransactions txs c.id "received"
        = txs.filter (fun tx => tx.recipient_id == some c.id) from rfl] at h
    have hmapS : companies.map
        (fun c => ((txs.filter (fun tx => tx.sender_id == some c.id)).map (·.amount)).sum)
        = (companies.map (·.id)).map
          (fun i => ((txs.filter (fun tx => tx.sender_id == some i)).map (·.amount)).sum) := by
      rw [List.map_map]
      rfl
    have hmapR : companies.map
        (fun c => ((txs.filter (fun tx => tx.recipient_id == some c.id)).map (·.amount)).sum)
        = (companies.map (·.id)).map
          (fun i => ((txs.filter (fun tx => tx.recipient_id == some i)).map (·.amount)).sum) := by
      rw [List.map_map]
      rfl
    have hS : (stmts.map (·.actualSent)).sum = (txs.map (·.amount)).sum := by
      rw [hsent, hmapS]
      exact sum_filter_partition (fun tx => tx.sender_id) txs (companies.map (·.id)) hsend
    have hR : (stmts.map (·.actualReceived)).sum = (txs.map (·.amount)).sum := by
      rw [hrecd, hmapR]
      exact sum_filter_partition (fun tx => tx.recipient_id) txs (companies.map (·.id)) hrecv
    unfold verifyNetworkIntegrity
    simp only [decide_eq_true_eq]
    rw [hS, hR]
    norm_num

/-- C9 witness: the empty transaction set over the fixture companies is
reported balanced, and the tolerance iff at an empty result list. -/
theorem c9_network_balance_witness :
    (verifyNetworkIntegrity []
      [emptyStatement "TC001", emptyStatement "GM002", emptyStatement "SC003"]).networkBalanced
      = true ∧
    ((verifyNetworkIntegrity [] []).networkBalanced = true ↔
      |(([] : List CompanyStatement).map (·.actualReceived)).sum
        - (([] : List CompanyStatement).map (·.actualSent)).sum| < 1 / 100) :=
  ⟨c9_network_balance.2 fixtureCompanies []
    [emptyStatement "TC001", emptyStatement "GM002", emptyStatement "SC003"]
    (List.Forall₂.cons rfl (List.Forall₂.cons rfl (List.Forall₂.cons rfl List.Forall₂.nil)))
    (fun tx htx => absurd htx (List.not_mem_nil tx))
    (fun tx htx => absurd htx (List.not_mem_nil tx)),
   c9_network_balance.1 [] []⟩

theorem processOne_spec (cs : List Company) (rp : ℕ × ℕ) (t : Transaction) :
    ProcessedSpec cs t (processOne cs rp t) := by
  obtain ⟨num, seller, buyer, amount, sidO, ridO, hes, her⟩ := t
  unfold ProcessedSpec processOne
  dsimp only
  rcases sidO with _ | sid <;> rcases ridO with _ | rid <;> dsimp only
  · exact ⟨fun _ => rfl, fun sid rid hsid _ _ _ => absurd hsid (by simp)⟩
  · exact ⟨fun _ => rfl, fun sid rid hsid _ _ _ => absurd hsid (by simp)⟩
  · exact ⟨fun _ => rfl, fun sid rid _ hrid _ _ => absurd hrid (by simp)⟩
  · constructor
    · intro hmiss
      have hor : sid = "" ∨ rid = "" := by
        rcases hmiss with h | h | h | h
        · exact absurd h (by simp)
        · exact absurd h (by simp)
        · exact Or.inl (Option.some.inj h)
        · exact Or.inr (Option.some.inj h)
      rw [if_pos hor]
    · intro sid' rid' hsid' hrid' hse hre
      obtain rfl : sid = sid' := Option.some.inj hsid'
      obtain rfl : rid = rid' := Option.some.inj hrid'
      have hcond : ¬(sid = "" ∨ rid = "") := not_or.mpr ⟨hse, hre⟩
      rw [if_neg hcond]
      unfold dualEncryptAmount
      constructor
      · intro hlk
        rcases hsl : companyLookup cs sid with _ | s
        · rfl
        · rcases hlk with h | h
          · exact absurd (hsl.symm.trans h) (by simp)
          · rw [h]
      · intro s r hsl hrl
        rw [hsl, hrl]
        exact ⟨rfl, rfl, rfl, rfl, rfl, rfl, rfl, rfl⟩

theorem processDualEncryption_go (cs : List Company) (rtape : ℕ → ℕ × ℕ) :
    ∀ (i : ℕ) (txs : List Transaction),
      (processDualEncryption cs rtape i txs).length = txs.length ∧
      List.Forall₂ (ProcessedSpec cs) txs (processDualEncryption cs rtape i txs) := by
  intro i txs
  induction txs generalizing i with
  | nil => exact ⟨rfl, List.Forall₂.nil⟩
  | cons t ts ih =>
    refine ⟨?_, ?_⟩
    · show (processOne cs (rtape i) t :: processDualEncryption cs rtape (i + 1) ts).length
        = (t :: ts).length
      simp [(ih (i + 1)).1]
    · exact List.Forall₂.cons (processOne_spec cs (rtape i) t) (ih (i + 1)).2

/-- C10: `processDualEncryption` returns one output per input transaction,
in order, and never throws: JS-falsy ids give the transaction back
unchanged, an encryption error (unknown company id) attaches
`dual_encrypted := false` with the error message, and a successful
encryption keeps every identifying field and sets
`dual_encrypted := true`. -/
theorem c10_process_total (cs : List Company) (rtape : ℕ → ℕ × ℕ)
    (txs : List Transaction) :
    (processDualEncryption cs rtape 0 txs).length = txs.length ∧
    List.Forall₂ (ProcessedSpec cs) txs (processDualEncryption cs rtape 0 txs) :=
  processDualEncryption_go cs rtape 0 txs

/-- C10 witness at a concrete mixed batch. -/
theorem c10_process_total_witness :
    (processDualEncryption fixtureCompanies (fun _ => (2, 3)) 0 w10txs).length
      = w10txs.length ∧
    List.Forall₂ (ProcessedSpec fixtureCompanies) w10txs
      (processDualEncryption fixtureCompanies (fun _ => (2, 3)) 0 w10txs) :=
  c10_process_total fixtureCompanies (fun _ => (2, 3)) w10txs

end Teais
